import Mathlib

/-!
Verification of the breez-sdk-ldk storage core.

This file shallowly embeds the storage subsystem of the repository:

* `MirroringStore` (src/libs/sdk-core/src/ldk/store/mirroring_store.rs):
  the durable local mirror with its `read`/`write`/`remove`/`list`
  operations, the `is_dirty` test and the `download`/`upload`
  reconciliation procedures.
* `VssStore` (src/libs/sdk-core/src/ldk/store/vss_store.rs): the
  versioned remote store client logic around the external
  `StorableBuilder` envelope.
* `authenticate` (src/libs/vss-signing-auth/src/auth.rs and common.rs):
  header-based request authentication.

The local sqlite table is modelled as a list of rows; SQL statements
become the corresponding list operations.  Remote calls are modelled by
explicit outcome parameters (success/failure per call) and by recording
the mutating calls (`put`/`delete`) that the code issues, so that
theorems can speak about which remote operations were performed.
External cryptographic primitives (secp256k1 recovery, zbase32, SHA-256d,
the VSS `StorableBuilder`) are modelled by their interfaces.
-/

namespace BreezStore

/-- Byte strings (sqlite BLOB / `Vec<u8>`) as lists of naturals. -/
abbrev Bytes := List Nat

/-- One row of the local `store` table created by `MirroringStore::new`:
`(primary_ns, secondary_ns, key, value, local_version, remote_version, removed)`. -/
structure Row where
  primary_ns : String
  secondary_ns : String
  key : String
  value : Bytes
  local_version : Int
  remote_version : Int
  removed : Bool
deriving DecidableEq, Repr

/-- The local `store` table. -/
abbrev Table := List Row

/-- The `WHERE primary_ns = ?1 AND secondary_ns = ?2 AND key = ?3` test. -/
def keyMatches (r : Row) (p s k : String) : Bool :=
  r.primary_ns == p && r.secondary_ns == s && r.key == k

/-- Two rows agree on the composite primary key. -/
def sameKey (a b : Row) : Bool :=
  keyMatches a b.primary_ns b.secondary_ns b.key

/-- `SELECT ... WHERE <key> LIMIT 1` (`query_row ... .optional()`); the
primary key makes the match unique on well-formed tables. -/
def findRow (t : Table) (p s k : String) : Option Row :=
  t.find? (fun r => keyMatches r p s k)

/-- `UPDATE store SET ... WHERE <key>`. -/
def updateMatching (t : Table) (p s k : String) (f : Row → Row) : Table :=
  t.map (fun r => if keyMatches r p s k then f r else r)

/-- `DELETE FROM store WHERE <key>`. -/
def deleteMatching (t : Table) (p s k : String) : Table :=
  t.filter (fun r => !keyMatches r p s k)

/-- `format!("{primary_ns}/{secondary_ns}/{key}")`. -/
def fullKey (p s k : String) : String := p ++ "/" ++ s ++ "/" ++ k

/-- The primary-key uniqueness constraint of the `store` table, as a
computable predicate over the list model. -/
def wfB : Table → Bool
  | [] => true
  | r :: rest => rest.all (fun x => !sameKey r x) && wfB rest

/-- Well-formed table: all composite primary keys are distinct. -/
abbrev WF (t : Table) : Prop := wfB t = true

/-- `MirroringStore::read`: `SELECT value ... WHERE <key> AND removed = 0`,
`None` modelling the `NotFound` error. -/
def readOp (t : Table) (p s k : String) : Option Bytes :=
  (t.find? (fun r => keyMatches r p s k && !r.removed)).map (·.value)

/-- Byte-wise lexicographic comparison of strings (sqlite BINARY
collation; on code points, which agrees with UTF-8 byte order). -/
def charListLe : List Char → List Char → Bool
  | [], _ => true
  | _ :: _, [] => false
  | a :: as_, b :: bs =>
    if a.toNat < b.toNat then true
    else if b.toNat < a.toNat then false
    else charListLe as_ bs

/-- Insert into a sorted key list (helper for `ORDER BY`). -/
def insertKeySorted (x : String) : List String → List String
  | [] => [x]
  | y :: ys => if charListLe x.data y.data then x :: y :: ys else y :: insertKeySorted x ys

/-- Sort a key list (the `ORDER BY primary_ns, secondary_ns, key` of
`list`, restricted to one namespace pair, orders by `key`). -/
def sortKeys : List String → List String
  | [] => []
  | x :: xs => insertKeySorted x (sortKeys xs)

/-- `MirroringStore::list`: keys of the non-tombstoned rows of the
namespace pair, sorted. -/
def listOp (t : Table) (p s : String) : List String :=
  sortKeys ((t.filter
    (fun r => r.primary_ns == p && r.secondary_ns == s && !r.removed)).map (·.key))

/-- Outcome of `MirroringStore::write`: whether it returned `Ok`, the
resulting table, and the remote `put` call it issued (key, value,
version), if any. -/
structure WriteResult where
  ok : Bool
  table : Table
  putCall : Option (String × Bytes × Int)
deriving DecidableEq, Repr

/-- `UPDATE store SET remote_version = local_version`, applied to a row. -/
def syncRemote (x : Row) : Row := { x with remote_version := x.local_version }

/-- `UPDATE store SET value = ?, local_version = ?, removed = 0`,
applied to a row. -/
def writeUpd (v : Bytes) (nv : Int) (x : Row) : Row :=
  { x with value := v, local_version := nv, removed := false }

/-- `UPDATE store SET removed = 1`, applied to a row. -/
def tombstone (x : Row) : Row := { x with removed := true }

/-- The tail of `MirroringStore::write` after the local row was stored:
issue `remote_client.put(full_key, value, next_version)`; on success run
`UPDATE store SET remote_version = local_version WHERE <key>`, on failure
return the error with the local row left as written. -/
def finishPut (t1 : Table) (p s k : String) (v : Bytes) (nv : Int) (putOk : Bool) :
    WriteResult :=
  if putOk then
    { ok := true
      table := updateMatching t1 p s k syncRemote
      putCall := some (fullKey p s k, v, nv) }
  else
    { ok := false, table := t1, putCall := some (fullKey p s k, v, nv) }

/-- `MirroringStore::write` (mirroring_store.rs lines 120–182).  `putOk`
models whether the remote `put` succeeds. -/
def writeOp (t : Table) (p s k : String) (v : Bytes) (putOk : Bool) : WriteResult :=
  match findRow t p s k with
  | none =>
    finishPut (t ++ [⟨p, s, k, v, 0, -1, false⟩]) p s k v 0 putOk
  | some r =>
    if !r.removed && r.value == v then
      { ok := true, table := t, putCall := none }
    else
      finishPut (updateMatching t p s k (writeUpd v (r.local_version + 1)))
        p s k v (r.local_version + 1) putOk

/-- Outcome of `MirroringStore::remove`: result, table, and the remote
`delete` call (always issued, with the full key). -/
structure RemoveResult where
  ok : Bool
  table : Table
  delCall : String
deriving DecidableEq, Repr

/-- `MirroringStore::remove` (mirroring_store.rs lines 184–218): set the
tombstone, issue the remote delete, and only on its success physically
delete the row.  The `lazy` flag is accepted and ignored, as in the
source.  `deleteOk` models whether the remote delete succeeds. -/
def removeOp (t : Table) (p s k : String) (_lz : Bool) (deleteOk : Bool) : RemoveResult :=
  let t1 := updateMatching t p s k tombstone
  if deleteOk then
    { ok := true, table := deleteMatching t1 p s k, delCall := fullKey p s k }
  else
    { ok := false, table := t1, delCall := fullKey p s k }

/-- `is_dirty` (mirroring_store.rs lines 233–240):
`count(local_version != remote_version OR removed = 1) > 0`. -/
def is_dirty (t : Table) : Bool :=
  0 < (t.filter (fun r => (r.local_version != r.remote_version) || r.removed)).length

/-- Split off the segment before the first `'/'`:
`some (before, after)`, or `none` when there is no `'/'`. -/
def splitOnce : List Char → Option (List Char × List Char)
  | [] => none
  | c :: rest =>
    if c = '/' then some ([], rest)
    else
      match splitOnce rest with
      | none => none
      | some (a, b) => some (c :: a, b)

/-- `full_key.splitn(3, '/')` matched against `[p, s, k]`: succeeds iff
the key contains at least two `'/'`, the third part keeping the rest. -/
def splitn3 (s : String) : Option (String × String × String) :=
  match splitOnce s.data with
  | none => none
  | some (p, rest) =>
    match splitOnce rest with
    | none => none
    | some (sn, k) => some (⟨p⟩, ⟨sn⟩, ⟨k⟩)

/-- The remote `VersionedStore` as seen by reconciliation: the result of
`list()` and of `get(key)`, each possibly failing. -/
structure Remote where
  listing : Except Unit (List (String × Int))
  getf : String → Except Unit (Option (Bytes × Int))

/-- `INSERT INTO store ...`: fails (primary-key violation) when a row
with the same composite key exists. -/
def insertRow (t : Table) (r : Row) : Except Unit Table :=
  match findRow t r.primary_ns r.secondary_ns r.key with
  | some _ => .error ()
  | none => .ok (t ++ [r])

/-- The loop of `download` (mirroring_store.rs lines 242–262): for each
listed `(full_key, _)`, skip malformed keys, fetch the object, and store
it with `local_version = remote_version = version - 1`, `removed = 0`. -/
def downloadLoop (getf : String → Except Unit (Option (Bytes × Int))) :
    List (String × Int) → Table → Except Unit Table
  | [], t => .ok t
  | (fk, _) :: rest, t =>
    match splitn3 fk with
    | none => downloadLoop getf rest t
    | some (p, sn, k) =>
      match getf fk with
      | .error e => .error e
      | .ok none => downloadLoop getf rest t
      | .ok (some (value, version)) =>
        match insertRow t ⟨p, sn, k, value, version - 1, version - 1, false⟩ with
        | .error e => .error e
        | .ok t1 => downloadLoop getf rest t1

/-- `download` (mirroring_store.rs lines 242–262): `DELETE FROM store`
then repopulate from the remote listing.  The pre-existing table is
discarded. -/
def download (_t : Table) (remote : Remote) : Except Unit Table :=
  match remote.listing with
  | .error e => .error e
  | .ok entries => downloadLoop remote.getf entries []

/-- The row one listing entry contributes on a successful download:
`none` for malformed keys and for keys whose fetch returns no value. -/
def fetchRow (getf : String → Except Unit (Option (Bytes × Int)))
    (e : String × Int) : Option Row :=
  match splitn3 e.1 with
  | none => none
  | some (p, sn, k) =>
    match getf e.1 with
    | .ok (some (value, version)) => some ⟨p, sn, k, value, version - 1, version - 1, false⟩
    | _ => none

/-- The table `download` produces on success, written directly from the
remote listing: one clean row per well-formed listed key whose fetch
returns a value. -/
def downloadImage (remote : Remote) : Table :=
  match remote.listing with
  | .error _ => []
  | .ok entries => entries.filterMap (fetchRow remote.getf)

/-- A mutating remote call issued during reconciliation or a mutation. -/
inductive RCall where
  | del (key : String)
  | put (key : String) (value : Bytes) (version : Int)
deriving DecidableEq, Repr

/-- First phase of `upload` (mirroring_store.rs lines 264–287): for each
tombstoned row, `remote.delete(full_key)` then `DELETE` it locally.  A
failing remote delete aborts with the error.  `delOk` models the remote
outcome per key. -/
def uploadDeletes (delOk : String → Bool) :
    List Row → Table → Except Unit (Table × List RCall)
  | [], t => .ok (t, [])
  | r :: rest, t =>
    if delOk (fullKey r.primary_ns r.secondary_ns r.key) then
      match uploadDeletes delOk rest (deleteMatching t r.primary_ns r.secondary_ns r.key) with
      | .ok (t1, calls) =>
        .ok (t1, .del (fullKey r.primary_ns r.secondary_ns r.key) :: calls)
      | .error e => .error e
    else .error ()

/-- Second phase of `upload` (mirroring_store.rs lines 289–314): for each
row with `local_version != remote_version AND removed = 0`,
`remote.put(full_key, value, local_version)`; on success
`UPDATE ... SET remote_version = local_version` for that key. -/
def uploadPuts (putOk : String → Bool) :
    List Row → Table → Except Unit (Table × List RCall)
  | [], t => .ok (t, [])
  | r :: rest, t =>
    if putOk (fullKey r.primary_ns r.secondary_ns r.key) then
      match uploadPuts putOk rest
          (updateMatching t r.primary_ns r.secondary_ns r.key syncRemote) with
      | .ok (t1, calls) =>
        .ok (t1, .put (fullKey r.primary_ns r.secondary_ns r.key) r.value r.local_version :: calls)
      | .error e => .error e
    else .error ()

/-- `upload` (mirroring_store.rs lines 264–315): push tombstones as
remote deletes, then push every modified row. -/
def upload (t : Table) (delOk putOk : String → Bool) :
    Except Unit (Table × List RCall) :=
  match uploadDeletes delOk (t.filter (·.removed)) t with
  | .error e => .error e
  | .ok (t1, delCalls) =>
    match uploadPuts putOk
        (t1.filter (fun r => (r.local_version != r.remote_version) && !r.removed)) t1 with
    | .error e => .error e
    | .ok (t2, putCalls) => .ok (t2, delCalls ++ putCalls)

/-- `PreviousHolder` (from the cross-device lock). -/
inductive PreviousHolder where
  | LocalInstance
  | RemoteInstance
deriving DecidableEq, Repr

/-- The reconciliation dispatch of `MirroringStore::new`
(mirroring_store.rs lines 74–91): match on
`(previous_holder, is_dirty)`.  The result pairs the reconciled table
with the mutating remote calls issued (`download` issues none). -/
def reconcile (ph : PreviousHolder) (t : Table) (remote : Remote)
    (delOk putOk : String → Bool) : Except Unit (Table × List RCall) :=
  match ph, is_dirty t with
  | .LocalInstance, false => .ok (t, [])
  | .LocalInstance, true => upload t delOk putOk
  | .RemoteInstance, _ =>
    match download t remote with
    | .error e => .error e
    | .ok t1 => .ok (t1, [])

/-! ### VssStore (vss_store.rs)

The external `vss_client_ng` envelope (`StorableBuilder`) is modelled by
its contract (spec §4.A): `build` embeds the plaintext and the version,
authenticated against the additional data; `deconstruct` returns them
exactly when the additional data matches, and fails otherwise.  Protobuf
encoding and the obfuscator are kept abstract (`obf` is an arbitrary
function). -/

/-- UTF-8 bytes of a string (`str::as_bytes`). -/
def strBytes (s : String) : Bytes :=
  (s.data.map (fun c => (String.utf8EncodeChar c).map (fun b => b.toNat))).flatten

/-- The decrypted content of a VSS `Storable`: payload, embedded version,
and the additional authenticated data it was built with. -/
structure Storable where
  value : Bytes
  version : Int
  aad : Bytes
deriving DecidableEq, Repr

/-- `StorableBuilder::build` (modelled by its contract). -/
def buildStorable (value : Bytes) (version : Int) (aad : Bytes) : Storable :=
  ⟨value, version, aad⟩

/-- `StorableBuilder::deconstruct` (modelled by its contract):
authenticates against `aad` and returns `(value, version)`. -/
def deconstructStorable (st : Storable) (aad : Bytes) : Except Unit (Bytes × Int) :=
  if st.aad = aad then .ok (st.value, st.version) else .error ()

/-- `VssStore::construct_storable` (vss_store.rs lines 54–63): builds the
payload with embedded version `version + 1` ("VSS server will increment
the version"), bound to the (unobfuscated) key bytes. -/
def construct_storable (key : String) (value : Bytes) (version : Int) : Storable :=
  buildStorable value (version + 1) (strBytes key)

/-- `VssStore::deconstruct_storable` (vss_store.rs lines 66–77):
obfuscates the key and authenticates the storable against the obfuscated
key's bytes. -/
def deconstruct_storable (obf : String → String) (key : String) (st : Storable) :
    Except Unit (Bytes × Int) :=
  deconstructStorable st (strBytes (obf key))

/-- The `KeyValue` of one VSS object: obfuscated key, metadata version,
and the stored (encrypted) payload. -/
structure KeyValueM where
  key : String
  version : Int
  value : Storable
deriving DecidableEq, Repr

/-- The remote server's answer to `get_object`. -/
inductive GetOutcome where
  | ok (value : Option KeyValueM)
  | noSuchKey
  | otherErr
deriving DecidableEq, Repr

/-- `VssStore::get` (vss_store.rs lines 80–100) as a function of the
server's response: absent keys (empty value or `NoSuchKeyError`) yield
`none`; otherwise the payload is deconstructed and the embedded version
must equal the metadata version. -/
def vssGet (obf : String → String) (key : String) (resp : GetOutcome) :
    Except Unit (Option (Bytes × Int)) :=
  match resp with
  | .ok (some kv) =>
    match deconstruct_storable obf key kv.value with
    | .error e => .error e
    | .ok (value, stored_version) =>
      if stored_version = kv.version then .ok (some (value, kv.version))
      else .error ()
  | .ok none => .ok none
  | .noSuchKey => .ok none
  | .otherErr => .error ()

/-- The `KeyValue` that `VssStore::put` (vss_store.rs lines 102–117)
commits: obfuscated key, the caller's expected version, and the payload
built by `construct_storable`. -/
def vssPutItem (obf : String → String) (key : String) (value : Bytes) (version : Int) :
    KeyValueM :=
  { key := obf key, version := version, value := construct_storable key value version }

/-! ### vss-signing-auth (auth.rs, common.rs)

secp256k1 recovery, hex, zbase32 and SHA-256d are modelled as abstract
primitives carried in a `Crypto` record; the header handling, message
layout, timestamp and length checks are concrete. -/

def API_KEY_HEADER : String := "X-Api-Key"

def REQUEST_TIME_HEADER : String := "X-Realtimesync-Request-Time"

def SIGNATURE_HEADER : String := "X-Realtimesync-Signature"

def USER_PUBKEY_HEADER : String := "X-Realtimesync-Pubkey"

/-- `SIGNED_MSG_PREFIX = b"realtimesync:"`. -/
def signedMsgPfx : Bytes := strBytes "realtimesync:"

/-- `u32::to_be_bytes`. -/
def be32 (n : Nat) : Bytes :=
  [n / 16777216 % 256, n / 65536 % 256, n / 256 % 256, n % 256]

/-- `str::parse::<u32>`: optional leading `'+'`, one or more digits,
value below `2^32`. -/
def parseU32 (s : String) : Option Nat :=
  let cs := match s.data with
    | '+' :: rest => rest
    | cs => cs
  if cs.isEmpty then none
  else if cs.all (fun c => c.isDigit) then
    let v := cs.foldl (fun a c => a * 10 + (c.toNat - 48)) 0
    if v < 4294967296 then some v else none
  else none

def asciiLowerChar (c : Char) : Char :=
  if 'A' ≤ c ∧ c ≤ 'Z' then Char.ofNat (c.toNat + 32) else c

/-- `str::to_ascii_lowercase`. -/
def asciiLower (s : String) : String := ⟨s.data.map asciiLowerChar⟩

/-- `find_header` (auth.rs lines 104–116): case-insensitive lookup. -/
def findHeader (hs : List (String × String)) (name : String) : Option String :=
  ((hs.map (fun kv => (asciiLower kv.1, kv.2))).find?
    (fun kv => kv.1 == asciiLower name)).map (fun kv => kv.2)

/-- Abstract cryptographic primitives used by `authenticate`: hex
decoding, `PublicKey::from_slice`, zbase32 decoding,
`RecoverableSignature::from_compact` (success only), ECDSA public-key
recovery, and SHA-256d. -/
structure Crypto where
  hexDecode : String → Option Bytes
  pubkeyFromSlice : Bytes → Option Bytes
  zbase32Decode : String → Option Bytes
  sigParseOk : Bytes → Nat → Bool
  recover : Bytes → Bytes × Nat → Option Bytes
  sha256d : Bytes → Bytes

def nsPerSec : Nat := 1000000000

/-- The skew computed by `authenticate`: `|now − request_time|`, with
`request_time = UNIX_EPOCH + timestamp` (in nanoseconds). -/
def skewNs (nowNs ts : Nat) : Nat :=
  if nowNs ≥ ts * nsPerSec then nowNs - ts * nsPerSec else ts * nsPerSec - nowNs

/-- `build_signed_message` (common.rs lines 11–18): SHA-256d of
`"realtimesync:" ∥ be32(timestamp) ∥ api_key`. -/
def build_signed_message (sha256d : Bytes → Bytes) (api_key : String)
    (request_timestamp : Nat) : Bytes :=
  sha256d (signedMsgPfx ++ be32 request_timestamp ++ strBytes api_key)

/-- `authenticate` (auth.rs lines 16–101).  Time is in nanoseconds since
the epoch; `none` models `AuthenticationFailed`, `some hex` success. -/
def authenticate (c : Crypto) (hs : List (String × String)) (nowNs maxSkewNs : Nat) :
    Option String :=
  match findHeader hs USER_PUBKEY_HEADER with
  | none => none
  | some pubkeyHex =>
    match c.hexDecode pubkeyHex with
    | none => none
    | some pubkeyBytes =>
      match c.pubkeyFromSlice pubkeyBytes with
      | none => none
      | some expectedPubkey =>
        match findHeader hs API_KEY_HEADER with
        | none => none
        | some apiKey =>
          match findHeader hs REQUEST_TIME_HEADER with
          | none => none
          | some tsStr =>
            match parseU32 tsStr with
            | none => none
            | some ts =>
              if skewNs nowNs ts > maxSkewNs then none
              else
                match findHeader hs SIGNATURE_HEADER with
                | none => none
                | some sigStr =>
                  match c.zbase32Decode sigStr with
                  | none => none
                  | some sigBytes =>
                    if sigBytes.length ≠ 65 then none
                    else if sigBytes.getD 64 0 > 3 then none
                    else if c.sigParseOk (sigBytes.take 64) (sigBytes.getD 64 0) then
                      if (build_signed_message c.sha256d apiKey ts).length = 32 then
                        match c.recover (build_signed_message c.sha256d apiKey ts)
                            (sigBytes.take 64, sigBytes.getD 64 0) with
                        | none => none
                        | some recovered =>
                          if recovered = expectedPubkey then some pubkeyHex else none
                      else none
                    else none

/-! ### Helper lemmas about the table model -/

theorem keyMatches_iff {r : Row} {p s k : String} :
    keyMatches r p s k = true ↔ r.primary_ns = p ∧ r.secondary_ns = s ∧ r.key = k := by
  simp [keyMatches, and_assoc]

theorem keyMatches_self (r : Row) :
    keyMatches r r.primary_ns r.secondary_ns r.key = true := by
  simp [keyMatches]

/-- A row transformer that does not touch the composite key fields. -/
def KeyFix (f : Row → Row) : Prop :=
  ∀ x, (f x).primary_ns = x.primary_ns ∧ (f x).secondary_ns = x.secondary_ns ∧
    (f x).key = x.key

theorem keyMatches_of_keyFix {f : Row → Row} (hf : KeyFix f) (x : Row) (p s k : String) :
    keyMatches (f x) p s k = keyMatches x p s k := by
  unfold keyMatches
  rw [(hf x).1, (hf x).2.1, (hf x).2.2]

theorem find?_map_comm (g : Row → Row) (q : Row → Bool) (hg : ∀ x, q (g x) = q x) :
    ∀ t : Table, (t.map g).find? q = (t.find? q).map g := by
  intro t
  induction t with
  | nil => rfl
  | cons h rest ih =>
    by_cases hq : q h = true
    · simp [List.find?_cons_of_pos, hq, hg]
    · simp only [Bool.not_eq_true] at hq
      simp [List.find?_cons_of_neg, hq, hg, ih]

theorem findRow_updateMatching {f : Row → Row} (hf : KeyFix f) (t : Table)
    (p s k p' s' k' : String) :
    findRow (updateMatching t p s k f) p' s' k' =
      (findRow t p' s' k').map (fun r => if keyMatches r p s k then f r else r) := by
  unfold findRow updateMatching
  exact find?_map_comm _ _
    (fun x => by
      by_cases hx : keyMatches x p s k = true
      · simp [hx, keyMatches_of_keyFix hf]
      · simp only [Bool.not_eq_true] at hx
        simp [hx]) t

theorem findRow_updateMatching_self {f : Row → Row} (hf : KeyFix f) {t : Table}
    {p s k : String} {r : Row} (hr : findRow t p s k = some r) :
    findRow (updateMatching t p s k f) p s k = some (f r) := by
  rw [findRow_updateMatching hf, hr]
  have := List.find?_some hr
  simp [this]

theorem updateMatching_of_none {f : Row → Row} {t : Table} {p s k : String}
    (h : findRow t p s k = none) : updateMatching t p s k f = t := by
  have hall := List.find?_eq_none.mp h
  unfold updateMatching
  rw [List.map_congr_left, List.map_id]
  intro x hx
  simp [hall x hx]

theorem deleteMatching_of_none {t : Table} {p s k : String}
    (h : findRow t p s k = none) : deleteMatching t p s k = t := by
  have hall := List.find?_eq_none.mp h
  unfold deleteMatching
  rw [List.filter_eq_self.mpr]
  intro x hx
  simp [hall x hx]

theorem findRow_append_of_none {t t2 : Table} {p s k : String}
    (h : findRow t p s k = none) : findRow (t ++ t2) p s k = findRow t2 p s k := by
  unfold findRow at *
  rw [List.find?_append, h, Option.none_or]

theorem findRow_append_left {t t2 : Table} {p s k : String} {r : Row}
    (h : findRow t p s k = some r) : findRow (t ++ t2) p s k = some r := by
  unfold findRow at *
  rw [List.find?_append, h]
  rfl

theorem keyFix_syncRemote : KeyFix syncRemote := fun _ => ⟨rfl, rfl, rfl⟩

theorem keyFix_writeUpd (v : Bytes) (nv : Int) : KeyFix (writeUpd v nv) :=
  fun _ => ⟨rfl, rfl, rfl⟩

theorem keyFix_tombstone : KeyFix tombstone := fun _ => ⟨rfl, rfl, rfl⟩

theorem readOp_cleared {t : Table} {p s k : String} {v : Bytes} {nv : Int}
    (h : findRow t p s k ≠ none) :
    readOp (updateMatching t p s k (writeUpd v nv)) p s k = some v := by
  induction t with
  | nil => simp [findRow] at h
  | cons hd rest ih =>
    by_cases hm : keyMatches hd p s k = true
    · obtain ⟨e1, e2, e3⟩ := keyMatches_iff.mp hm
      simp [readOp, updateMatching, List.find?, keyMatches, writeUpd, if_pos hm, e1, e2, e3]
    · simp only [Bool.not_eq_true] at hm
      have h' : findRow rest p s k ≠ none := by
        unfold findRow at h ⊢
        simpa [List.find?, hm] using h
      simpa [readOp, updateMatching, List.find?, hm] using ih h'

theorem readOp_tombstoned (t : Table) (p s k : String) :
    readOp (updateMatching t p s k tombstone) p s k = none := by
  unfold readOp
  rw [Option.map_eq_none', List.find?_eq_none]
  intro x hx
  rcases List.mem_map.mp hx with ⟨y, _, rfl⟩
  by_cases hy : keyMatches y p s k = true
  · simp [hy, keyMatches_of_keyFix keyFix_tombstone, tombstone]
  · simp only [Bool.not_eq_true] at hy
    simp [hy]

theorem readOp_deleteMatching (t : Table) (p s k : String) :
    readOp (deleteMatching t p s k) p s k = none := by
  unfold readOp deleteMatching
  rw [Option.map_eq_none', List.find?_eq_none]
  intro x hx
  have := (List.mem_filter.mp hx).2
  simp only [Bool.not_eq_true'] at this
  simp [this]

theorem mem_insertKeySorted {a x : String} {l : List String} :
    a ∈ insertKeySorted x l ↔ a = x ∨ a ∈ l := by
  induction l with
  | nil => simp [insertKeySorted]
  | cons y ys ih =>
    simp only [insertKeySorted]
    split
    · simp [List.mem_cons]
    · simp only [List.mem_cons, ih]
      tauto

theorem mem_sortKeys {a : String} {l : List String} :
    a ∈ sortKeys l ↔ a ∈ l := by
  induction l with
  | nil => simp [sortKeys]
  | cons x xs ih => simp [sortKeys, mem_insertKeySorted, ih]

theorem mem_listOp {t : Table} {p s k : String} :
    k ∈ listOp t p s ↔
      ∃ r ∈ t, r.primary_ns = p ∧ r.secondary_ns = s ∧ r.removed = false ∧ r.key = k := by
  unfold listOp
  rw [mem_sortKeys]
  simp only [List.mem_map, List.mem_filter]
  constructor
  · rintro ⟨r, ⟨hmem, hcond⟩, rfl⟩
    simp only [Bool.and_eq_true, beq_iff_eq, Bool.not_eq_true'] at hcond
    exact ⟨r, hmem, hcond.1.1, hcond.1.2, hcond.2, rfl⟩
  · rintro ⟨r, hmem, h1, h2, h3, rfl⟩
    exact ⟨r, ⟨hmem, by simp [h1, h2, h3]⟩, rfl⟩

/-! ### Branch equations for `writeOp` -/

theorem finishPut_true (t1 : Table) (p s k : String) (v : Bytes) (nv : Int) :
    finishPut t1 p s k v nv true =
      { ok := true, table := updateMatching t1 p s k syncRemote,
        putCall := some (fullKey p s k, v, nv) } := rfl

theorem finishPut_false (t1 : Table) (p s k : String) (v : Bytes) (nv : Int) :
    finishPut t1 p s k v nv false =
      { ok := false, table := t1, putCall := some (fullKey p s k, v, nv) } := rfl

theorem writeOp_of_none {t : Table} {p s k : String} {v : Bytes} {putOk : Bool}
    (h : findRow t p s k = none) :
    writeOp t p s k v putOk =
      finishPut (t ++ [⟨p, s, k, v, 0, -1, false⟩]) p s k v 0 putOk := by
  unfold writeOp
  rw [h]

theorem writeOp_of_skip {t : Table} {p s k : String} {v : Bytes} {putOk : Bool} {r : Row}
    (h : findRow t p s k = some r) (hc : (!r.removed && r.value == v) = true) :
    writeOp t p s k v putOk = { ok := true, table := t, putCall := none } := by
  unfold writeOp
  rw [h]
  simp [hc]

theorem writeOp_of_update {t : Table} {p s k : String} {v : Bytes} {putOk : Bool} {r : Row}
    (h : findRow t p s k = some r) (hc : ¬ (!r.removed && r.value == v) = true) :
    writeOp t p s k v putOk =
      finishPut (updateMatching t p s k (writeUpd v (r.local_version + 1)))
        p s k v (r.local_version + 1) putOk := by
  unfold writeOp
  rw [h]
  simp [hc]

/-! ### Claims about `MirroringStore::write` and `MirroringStore::remove` -/

/-- C1 (amended): for a `write` on a key with an existing local row, the
write is a no-op (success, no remote put, table untouched) if and only if
the row is not tombstoned and its stored value byte-equals the new value
— regardless of whether `local_version = remote_version`; in every other
case the write stores the new value, sets `local_version` to
`local_version + 1`, clears the tombstone, and issues the remote put with
the new `local_version`. -/
theorem write_noop_iff (t : Table) (p s k : String) (v : Bytes) (putOk : Bool) (r : Row)
    (hr : findRow t p s k = some r) :
    (((writeOp t p s k v putOk).ok = true ∧ (writeOp t p s k v putOk).putCall = none ∧
        (writeOp t p s k v putOk).table = t) ↔ (r.removed = false ∧ r.value = v)) ∧
    (¬(r.removed = false ∧ r.value = v) →
      (writeOp t p s k v putOk).putCall = some (fullKey p s k, v, r.local_version + 1) ∧
      ∃ r', findRow (writeOp t p s k v putOk).table p s k = some r' ∧
        r'.value = v ∧ r'.local_version = r.local_version + 1 ∧ r'.removed = false) := by
  by_cases hc : (!r.removed && r.value == v) = true
  · have hc' : r.removed = false ∧ r.value = v := by
      simpa [Bool.not_eq_true'] using hc
    rw [writeOp_of_skip hr hc]
    exact ⟨by simpa using hc', fun hn => absurd hc' hn⟩
  · have hc' : ¬(r.removed = false ∧ r.value = v) := by
      intro hand
      exact hc (by simp [hand.1, hand.2])
    rw [writeOp_of_update hr hc]
    have hup : findRow (updateMatching t p s k (writeUpd v (r.local_version + 1))) p s k =
        some (writeUpd v (r.local_version + 1) r) :=
      findRow_updateMatching_self (keyFix_writeUpd _ _) hr
    refine ⟨⟨?_, fun hand => absurd hand hc'⟩, fun _ => ⟨?_, ?_⟩⟩
    · rintro ⟨-, hput, -⟩
      cases putOk <;> simp [finishPut] at hput
    · cases putOk <;> simp [finishPut]
    · cases putOk with
      | false => exact ⟨_, hup, rfl, rfl, rfl⟩
      | true =>
        refine ⟨syncRemote (writeUpd v (r.local_version + 1) r), ?_, rfl, rfl, rfl⟩
        exact findRow_updateMatching_self keyFix_syncRemote hup

/-- C1 counterexample to the claim as stated: a dirty row
(`local_version = 0 ≠ -1 = remote_version`) whose stored value equals the
new value is also a no-op, although the claim requires cleanness
(`local_version = remote_version`) for the no-op. -/
theorem write_noop_dirty_row :
    (writeOp [⟨"p", "s", "k", [1], 0, -1, false⟩] "p" "s" "k" [1] true).ok = true ∧
    (writeOp [⟨"p", "s", "k", [1], 0, -1, false⟩] "p" "s" "k" [1] true).putCall = none ∧
    (writeOp [⟨"p", "s", "k", [1], 0, -1, false⟩] "p" "s" "k" [1] true).table =
      [⟨"p", "s", "k", [1], 0, -1, false⟩] ∧
    findRow [⟨"p", "s", "k", [1], 0, -1, false⟩] "p" "s" "k" =
      some ⟨"p", "s", "k", [1], 0, -1, false⟩ ∧
    (Row.local_version ⟨"p", "s", "k", [1], 0, -1, false⟩ ≠
      Row.remote_version ⟨"p", "s", "k", [1], 0, -1, false⟩) := by
  refine ⟨rfl, rfl, rfl, rfl, by decide⟩

/-- Witness for C1's amended theorem at a concrete input. -/
theorem write_noop_iff_witness :
    findRow [⟨"p", "s", "k", [1], 0, 0, false⟩] "p" "s" "k" =
      some ⟨"p", "s", "k", [1], 0, 0, false⟩ ∧
    (writeOp [⟨"p", "s", "k", [1], 0, 0, false⟩] "p" "s" "k" [2] true).putCall =
      some (fullKey "p" "s" "k", [2], 1) :=
  ⟨rfl, ((write_noop_iff [⟨"p", "s", "k", [1], 0, 0, false⟩] "p" "s" "k" [2] true
      ⟨"p", "s", "k", [1], 0, 0, false⟩ rfl).2 (by decide)).1⟩

/-- C2: when `write` fails because the remote put returned an error, the
error is surfaced, the local row keeps the new value and stays dirty with
`remote_version` unchanged, and a subsequent `read` returns the new
value.  The hypothesis `remote_version ≤ local_version` is the invariant
every reachable table satisfies. -/
theorem write_remote_failure (t : Table) (p s k : String) (v : Bytes)
    (hinv : ∀ r ∈ t, r.remote_version ≤ r.local_version)
    (hput : (writeOp t p s k v false).putCall.isSome = true) :
    (writeOp t p s k v false).ok = false ∧
    readOp (writeOp t p s k v false).table p s k = some v ∧
    ∃ r', findRow (writeOp t p s k v false).table p s k = some r' ∧
      r'.value = v ∧ r'.local_version ≠ r'.remote_version ∧
      r'.remote_version = (match findRow t p s k with
                           | some r => r.remote_version
                           | none => -1) := by
  cases hfr : findRow t p s k with
  | none =>
    have hnew : keyMatches (⟨p, s, k, v, 0, -1, false⟩ : Row) p s k = true := by
      simp [keyMatches]
    rw [writeOp_of_none hfr]
    simp only [finishPut, if_neg (by simp : ¬ (false = true))]
    refine ⟨by simp, ?_, ?_⟩
    · unfold readOp
      rw [List.find?_append]
      have h1 : (t.find? fun r => keyMatches r p s k && !r.removed) = none := by
        rw [List.find?_eq_none]
        intro x hx
        have := List.find?_eq_none.mp hfr x hx
        simp only [Bool.not_eq_true] at this
        simp [this]
      rw [h1]
      simp [List.find?, hnew]
    · refine ⟨⟨p, s, k, v, 0, -1, false⟩, ?_, rfl, by show (0 : Int) ≠ -1; decide, rfl⟩
      rw [findRow_append_of_none hfr]
      simp [findRow, List.find?, hnew]
  | some r =>
    have hmem : r ∈ t := List.mem_of_find?_eq_some hfr
    have hle : r.remote_version ≤ r.local_version := hinv r hmem
    by_cases hc : (!r.removed && r.value == v) = true
    · rw [writeOp_of_skip hfr hc] at hput
      simp at hput
    · rw [writeOp_of_update hfr hc]
      simp only [finishPut, if_neg (by simp : ¬ (false = true))]
      refine ⟨by simp, ?_, ?_⟩
      · exact readOp_cleared (by rw [hfr]; exact fun hco => Option.noConfusion hco)
      · refine ⟨_, findRow_updateMatching_self (keyFix_writeUpd _ _) hfr, rfl, ?_, rfl⟩
        show (writeUpd v (r.local_version + 1) r).local_version ≠
          (writeUpd v (r.local_version + 1) r).remote_version
        unfold writeUpd
        simp only
        omega

/-- Witness for C2 at a concrete input. -/
theorem write_remote_failure_witness :
    (∀ r ∈ ([] : Table), r.remote_version ≤ r.local_version) ∧
    (writeOp [] "p" "s" "k" [1] false).putCall.isSome = true ∧
    readOp (writeOp [] "p" "s" "k" [1] false).table "p" "s" "k" = some [1] :=
  ⟨by simp, by decide,
    (write_remote_failure [] "p" "s" "k" [1] (by simp) (by decide)).2.1⟩

/-- C3: `remove` first tombstones the row, so the key disappears from
`read` and `list` whether or not the remote delete succeeds; the remote
delete is always issued; on its failure the error is surfaced with the
tombstone retained, and the row is physically deleted only when the
remote delete succeeds. -/
theorem remove_tombstone (t : Table) (p s k : String) (lz dOk : Bool) :
    (removeOp t p s k lz dOk).ok = dOk ∧
    (removeOp t p s k lz dOk).delCall = fullKey p s k ∧
    readOp (removeOp t p s k lz dOk).table p s k = none ∧
    k ∉ listOp (removeOp t p s k lz dOk).table p s ∧
    (removeOp t p s k lz dOk).table =
      (if dOk then deleteMatching (updateMatching t p s k tombstone) p s k
       else updateMatching t p s k tombstone) := by
  have hnotin : ∀ tb : Table, k ∉ listOp (updateMatching tb p s k tombstone) p s := by
    intro tb hk
    rcases mem_listOp.mp hk with ⟨r, hmem, h1, h2, h3, h4⟩
    rcases List.mem_map.mp hmem with ⟨y, _, rfl⟩
    by_cases hy : keyMatches y p s k = true
    · rw [if_pos hy] at h3
      simp [tombstone] at h3
    · simp only [Bool.not_eq_true] at hy
      rw [if_neg (by simp [hy])] at h1 h2 h4
      exact absurd (keyMatches_iff.mpr ⟨h1, h2, h4⟩) (by simp [hy])
  cases dOk with
  | false =>
    refine ⟨rfl, rfl, readOp_tombstoned t p s k, ?_, rfl⟩
    exact hnotin t
  | true =>
    refine ⟨rfl, rfl, readOp_deleteMatching _ p s k, ?_, rfl⟩
    intro hk
    rcases mem_listOp.mp hk with ⟨r, hmem, h1, h2, h3, h4⟩
    have hmem' : r ∈ updateMatching t p s k tombstone :=
      (List.mem_filter.mp hmem).1
    exact hnotin t (mem_listOp.mpr ⟨r, hmem', h1, h2, h3, h4⟩)

/-- C10: removing a key that has no local row still issues the remote
delete, leaves the table unchanged, and succeeds iff the remote delete
does. -/
theorem remove_missing_key (t : Table) (p s k : String) (lz dOk : Bool)
    (h : findRow t p s k = none) :
    (removeOp t p s k lz dOk).ok = dOk ∧
    (removeOp t p s k lz dOk).delCall = fullKey p s k ∧
    (removeOp t p s k lz dOk).table = t := by
  cases dOk with
  | false => exact ⟨rfl, rfl, updateMatching_of_none h⟩
  | true =>
    refine ⟨rfl, rfl, ?_⟩
    show deleteMatching (updateMatching t p s k _) p s k = t
    rw [updateMatching_of_none h, deleteMatching_of_none h]

/-! ### Key splitting and well-formedness lemmas -/

theorem splitOnce_reconstruct :
    ∀ {l a b : List Char}, splitOnce l = some (a, b) → a ++ '/' :: b = l := by
  intro l
  induction l with
  | nil => intro a b h; simp [splitOnce] at h
  | cons c rest ih =>
    intro a b h
    by_cases hc : c = '/'
    · subst hc
      simp [splitOnce] at h
      rw [h.1, h.2]
      rfl
    · simp only [splitOnce, if_neg hc] at h
      cases hsp : splitOnce rest with
      | none => rw [hsp] at h; simp at h
      | some ab =>
        obtain ⟨a', b'⟩ := ab
        rw [hsp] at h
        simp at h
        rw [h.1.symm, h.2.symm]
        simpa using ih hsp

theorem string_ext {a b : String} (h : a.data = b.data) : a = b := by
  cases a
  cases b
  exact congrArg String.mk h

theorem splitn3_fullKey {fk : String} {p sn k : String}
    (h : splitn3 fk = some (p, sn, k)) : fullKey p sn k = fk := by
  unfold splitn3 at h
  split at h
  · simp at h
  · rename_i pd rest h1
    split at h
    · simp at h
    · rename_i sd kd h2
      simp only [Option.some.injEq, Prod.mk.injEq] at h
      obtain ⟨hp, hs, hk⟩ := h
      apply string_ext
      have e1 := splitOnce_reconstruct h1
      have e2 := splitOnce_reconstruct h2
      rw [← hp, ← hs, ← hk]
      show (⟨pd⟩ ++ "/" ++ ⟨sd⟩ ++ "/" ++ (⟨kd⟩ : String)).data = fk.data
      simp only [String.data_append]
      rw [← e1, ← e2]
      simp

theorem sameKey_symm (a b : Row) : sameKey a b = sameKey b a := by
  rw [Bool.eq_iff_iff]
  show keyMatches a _ _ _ = true ↔ keyMatches b _ _ _ = true
  rw [keyMatches_iff, keyMatches_iff]
  constructor
  · rintro ⟨h1, h2, h3⟩
    exact ⟨h1.symm, h2.symm, h3.symm⟩
  · rintro ⟨h1, h2, h3⟩
    exact ⟨h1.symm, h2.symm, h3.symm⟩

theorem WF_eq {t : Table} (hwf : WF t) :
    ∀ {x y : Row}, x ∈ t → y ∈ t → sameKey x y = true → x = y := by
  induction t with
  | nil => intro x y hx; simp at hx
  | cons h rest ih =>
    unfold WF wfB at hwf
    rw [Bool.and_eq_true] at hwf
    obtain ⟨hall, hrest⟩ := hwf
    rw [List.all_eq_true] at hall
    intro x y hx hy hxy
    rcases List.mem_cons.mp hx with rfl | hx' <;>
      rcases List.mem_cons.mp hy with rfl | hy'
    · rfl
    · exact absurd hxy (by simpa using hall y hy')
    · exact absurd hxy (by rw [sameKey_symm]; simpa using hall x hx')
    · exact ih hrest hx' hy' hxy

theorem findRow_self_of_WF {t : Table} (hwf : WF t) {r : Row} (hr : r ∈ t) :
    findRow t r.primary_ns r.secondary_ns r.key = some r := by
  cases h : findRow t r.primary_ns r.secondary_ns r.key with
  | none =>
    have := List.find?_eq_none.mp h r hr
    exact absurd (keyMatches_self r) this
  | some x =>
    have hx : x ∈ t := List.mem_of_find?_eq_some h
    have h' : t.find? (fun y => keyMatches y r.primary_ns r.secondary_ns r.key) = some x := h
    have hkm := List.find?_some h'
    rw [WF_eq hwf hx hr hkm]

theorem wfB_append_singleton {t : Table} {r : Row}
    (hall : ∀ x ∈ t, sameKey x r = false) (hwf : wfB t = true) :
    wfB (t ++ [r]) = true := by
  induction t with
  | nil => simp [wfB]
  | cons h rest ih =>
    unfold wfB at hwf
    rw [Bool.and_eq_true] at hwf
    obtain ⟨h1, h2⟩ := hwf
    show ((rest ++ [r]).all (fun x => !sameKey h x) && wfB (rest ++ [r])) = true
    rw [Bool.and_eq_true]
    refine ⟨?_, ih (fun x hx => hall x (List.mem_cons_of_mem h hx)) h2⟩
    rw [List.all_append, Bool.and_eq_true]
    exact ⟨h1, by simp [hall h (List.mem_cons_self h rest)]⟩

theorem insertRow_ok {t : Table} {r : Row} {t1 : Table}
    (h : insertRow t r = .ok t1) :
    t1 = t ++ [r] ∧ findRow t r.primary_ns r.secondary_ns r.key = none := by
  unfold insertRow at h
  cases hf : findRow t r.primary_ns r.secondary_ns r.key with
  | some x => rw [hf] at h; simp at h
  | none =>
    rw [hf] at h
    simp at h
    exact ⟨h.symm, rfl⟩

theorem WF_insertRow {t : Table} {r : Row} {t1 : Table}
    (hwf : WF t) (h : insertRow t r = .ok t1) : WF t1 := by
  obtain ⟨rfl, hnone⟩ := insertRow_ok h
  have hall : ∀ x ∈ t, sameKey x r = false := by
    intro x hx
    have := List.find?_eq_none.mp hnone x hx
    simpa [sameKey] using this
  exact wfB_append_singleton hall hwf

/-! ### Download characterization -/

theorem fetchRow_some {getf : String → Except Unit (Option (Bytes × Int))}
    {e : String × Int} {r : Row} (h : fetchRow getf e = some r) :
    splitn3 e.1 = some (r.primary_ns, r.secondary_ns, r.key) ∧
    ∃ ver, getf e.1 = .ok (some (r.value, ver)) ∧
      r.local_version = ver - 1 ∧ r.remote_version = ver - 1 ∧ r.removed = false := by
  unfold fetchRow at h
  split at h
  · simp at h
  · rename_i p sn k hsp
    split at h
    · rename_i val ver hg
      simp only [Option.some.injEq] at h
      subst h
      exact ⟨hsp, ver, hg, rfl, rfl, rfl⟩
    · simp at h

theorem downloadLoop_ok {getf : String → Except Unit (Option (Bytes × Int))} :
    ∀ {entries : List (String × Int)} {acc t' : Table},
      downloadLoop getf entries acc = .ok t' →
      t' = acc ++ entries.filterMap (fetchRow getf) ∧ (WF acc → WF t') := by
  intro entries
  induction entries with
  | nil =>
    intro acc t' h
    simp only [downloadLoop, Except.ok.injEq] at h
    subst h
    simp
  | cons e rest ih =>
    intro acc t' h
    obtain ⟨fk, ver⟩ := e
    simp only [downloadLoop] at h
    split at h
    · rename_i hsp
      have := ih h
      simpa [fetchRow, hsp] using this
    · rename_i p sn k hsp
      split at h
      · rename_i er hg
        simp at h
      · rename_i hg
        have := ih h
        simpa [fetchRow, hsp, hg] using this
      · rename_i val ver' hg
        split at h
        · rename_i er hins
          simp at h
        · rename_i t1 hins
          obtain ⟨heq, hwfimp⟩ := ih h
          obtain ⟨ht1, -⟩ := insertRow_ok hins
          subst ht1
          constructor
          · rw [heq]
            simp [fetchRow, hsp, hg, List.append_assoc]
          · intro hacc
            exact hwfimp (WF_insertRow hacc hins)

theorem download_ok {t : Table} {remote : Remote} {t' : Table}
    (h : download t remote = .ok t') :
    t' = downloadImage remote ∧ WF t' := by
  unfold download at h
  cases hl : remote.listing with
  | error er => rw [hl] at h; simp at h
  | ok entries =>
    rw [hl] at h
    obtain ⟨heq, hwf⟩ := downloadLoop_ok h
    refine ⟨?_, hwf (by rfl)⟩
    rw [heq]
    unfold downloadImage
    rw [hl]
    simp

/-- C4: reconciliation with previous holder `RemoteInstance` — dirty or
not — truncates the local table and repopulates it from the remote, so
its post-reconciliation contents are a function of the remote alone
(`downloadImage`), independent of pre-reconciliation local content; no
mutating remote calls are issued, and listed keys that do not split into
three `'/'`-separated parts contribute no row. -/
theorem reconcile_remote_wins (t : Table) (remote : Remote)
    (delOk putOk : String → Bool) (t' : Table) (calls : List RCall)
    (h : reconcile .RemoteInstance t remote delOk putOk = .ok (t', calls)) :
    t' = downloadImage remote ∧ calls = [] ∧ WF t' ∧
    (∀ entries, remote.listing = .ok entries →
      ∀ fk ver, (fk, ver) ∈ entries → splitn3 fk = none →
        ∀ r ∈ t', fullKey r.primary_ns r.secondary_ns r.key ≠ fk) := by
  unfold reconcile at h
  cases hdl : download t remote with
  | error er => rw [hdl] at h; simp at h
  | ok t1 =>
    rw [hdl] at h
    simp only [Except.ok.injEq, Prod.mk.injEq] at h
    obtain ⟨rfl, rfl⟩ := h
    obtain ⟨heq, hwf⟩ := download_ok hdl
    refine ⟨heq, rfl, hwf, ?_⟩
    intro entries hl fk ver _ hmal r hr hkey
    rw [heq] at hr
    unfold downloadImage at hr
    rw [hl] at hr
    obtain ⟨e, -, hfe⟩ := List.mem_filterMap.mp hr
    obtain ⟨hsp, -⟩ := fetchRow_some hfe
    have := splitn3_fullKey hsp
    rw [hkey] at this
    rw [this] at hmal
    rw [hsp] at hmal
    exact Option.noConfusion hmal

/-- Witness for C4 at a concrete input (one well-formed and one
malformed listed key). -/
theorem reconcile_remote_wins_witness :
    reconcile .RemoteInstance [⟨"x", "y", "z", [0], 5, 5, false⟩]
      { listing := .ok [("a/b/c", 5), ("malformed", 3)],
        getf := fun fk => if fk = "a/b/c" then .ok (some ([9], 5)) else .ok none }
      (fun _ => true) (fun _ => true) =
      .ok ([⟨"a", "b", "c", [9], 4, 4, false⟩], []) ∧
    downloadImage
      { listing := .ok [("a/b/c", 5), ("malformed", 3)],
        getf := fun fk => if fk = "a/b/c" then .ok (some ([9], 5)) else .ok none } =
      [⟨"a", "b", "c", [9], 4, 4, false⟩] :=
  ⟨by rfl,
    ((reconcile_remote_wins [⟨"x", "y", "z", [0], 5, 5, false⟩]
      { listing := .ok [("a/b/c", 5), ("malformed", 3)],
        getf := fun fk => if fk = "a/b/c" then .ok (some ([9], 5)) else .ok none }
      (fun _ => true) (fun _ => true)
      [⟨"a", "b", "c", [9], 4, 4, false⟩] [] (by rfl)).1).symm⟩

/-- C6 counterexample to the claim as stated: a record fetched with
remote version `5` is stored with `local_version = 4`, and the first
subsequent write of that key carrying the *identical* value
short-circuits — it returns success with no remote put and leaves
`local_version` at `4`, not `5` — although the claim asserts that the
first subsequent write sets `local_version` to exactly `5` and calls the
remote put with expected version `5`. -/
theorem download_first_write_noop_cex :
    download []
      { listing := .ok [("a/b/c", 5)],
        getf := fun fk => if fk = "a/b/c" then .ok (some ([9], 5)) else .ok none } =
      .ok [⟨"a", "b", "c", [9], 4, 4, false⟩] ∧
    (writeOp [⟨"a", "b", "c", [9], 4, 4, false⟩] "a" "b" "c" [9] true).ok = true ∧
    (writeOp [⟨"a", "b", "c", [9], 4, 4, false⟩] "a" "b" "c" [9] true).putCall = none ∧
    (writeOp [⟨"a", "b", "c", [9], 4, 4, false⟩] "a" "b" "c" [9] true).table =
      [⟨"a", "b", "c", [9], 4, 4, false⟩] ∧
    Row.local_version ⟨"a", "b", "c", [9], 4, 4, false⟩ ≠ (5 : Int) :=
  ⟨by rfl, by rfl, by rfl, by rfl, by decide⟩

/-- C6 (amended): every record fetched with remote version `ver` during
download is stored clean with `local_version = ver - 1`; the first
subsequent write of that key with a value different from the stored one
bumps `local_version` to exactly `ver` and issues the remote put with
expected version `ver`, while a first write of the identical value
short-circuits: it returns success with no remote put and the row —
including `local_version = ver - 1` — unchanged. -/
theorem download_version_alignment (t : Table) (remote : Remote) (t' : Table)
    (h : download t remote = .ok t') :
    ∀ r ∈ t', r.removed = false ∧ r.local_version = r.remote_version ∧
      remote.getf (fullKey r.primary_ns r.secondary_ns r.key) =
        .ok (some (r.value, r.local_version + 1)) ∧
      (∀ v putOk, r.value ≠ v →
        (writeOp t' r.primary_ns r.secondary_ns r.key v putOk).putCall =
          some (fullKey r.primary_ns r.secondary_ns r.key, v, r.local_version + 1)) ∧
      (∀ putOk, writeOp t' r.primary_ns r.secondary_ns r.key r.value putOk =
        { ok := true, table := t', putCall := none }) := by
  obtain ⟨heq, hwf⟩ := download_ok h
  intro r hr
  have hrr := hr
  rw [heq] at hrr
  unfold downloadImage at hrr
  cases hl : remote.listing with
  | error er =>
    rw [hl] at hrr
    simp at hrr
  | ok entries =>
    rw [hl] at hrr
    obtain ⟨e, -, hfe⟩ := List.mem_filterMap.mp hrr
    obtain ⟨hsp, ver, hget, hlv, hrv, hrm⟩ := fetchRow_some hfe
    have hfull : fullKey r.primary_ns r.secondary_ns r.key = e.1 := splitn3_fullKey hsp
    have hfind : findRow t' r.primary_ns r.secondary_ns r.key = some r :=
      findRow_self_of_WF hwf hr
    refine ⟨hrm, by rw [hlv, hrv], ?_, ?_, ?_⟩
    · have hv : r.local_version + 1 = ver := by omega
      rw [hfull, hv]
      exact hget
    · intro v putOk hne
      have hc : ¬ (!r.removed && r.value == v) = true := by
        simp [hrm, hne]
      rw [writeOp_of_update hfind hc]
      cases putOk <;> simp [finishPut]
    · intro putOk
      exact writeOp_of_skip hfind (by simp [hrm])

/-- Witness for C6 at a concrete input. -/
theorem download_version_alignment_witness :
    download []
      { listing := .ok [("a/b/c", 5)],
        getf := fun fk => if fk = "a/b/c" then .ok (some ([9], 5)) else .ok none } =
      .ok [⟨"a", "b", "c", [9], 4, 4, false⟩] ∧
    (⟨"a", "b", "c", [9], 4, 4, false⟩ : Row) ∈ ([⟨"a", "b", "c", [9], 4, 4, false⟩] : Table) ∧
    (⟨"a", "b", "c", [9], 4, 4, false⟩ : Row).local_version =
      (⟨"a", "b", "c", [9], 4, 4, false⟩ : Row).remote_version ∧
    writeOp [⟨"a", "b", "c", [9], 4, 4, false⟩] "a" "b" "c" [9] true =
      { ok := true, table := [⟨"a", "b", "c", [9], 4, 4, false⟩], putCall := none } :=
  ⟨by rfl, by simp,
    (download_version_alignment []
      { listing := .ok [("a/b/c", 5)],
        getf := fun fk => if fk = "a/b/c" then .ok (some ([9], 5)) else .ok none }
      [⟨"a", "b", "c", [9], 4, 4, false⟩] (by rfl)
      ⟨"a", "b", "c", [9], 4, 4, false⟩ (by simp)).2.1,
    (download_version_alignment []
      { listing := .ok [("a/b/c", 5)],
        getf := fun fk => if fk = "a/b/c" then .ok (some ([9], 5)) else .ok none }
      [⟨"a", "b", "c", [9], 4, 4, false⟩] (by rfl)
      ⟨"a", "b", "c", [9], 4, 4, false⟩ (by simp)).2.2.2.2 true⟩

/-! ### Upload characterization -/

theorem sameKey_self (r : Row) : sameKey r r = true := keyMatches_self r

theorem uploadDeletes_ok {delOk : String → Bool} :
    ∀ {ds : List Row} {t t1 : Table} {calls : List RCall},
      uploadDeletes delOk ds t = .ok (t1, calls) →
      calls = ds.map (fun r => RCall.del (fullKey r.primary_ns r.secondary_ns r.key)) ∧
      t1 = ds.foldl (fun acc r => deleteMatching acc r.primary_ns r.secondary_ns r.key) t := by
  intro ds
  induction ds with
  | nil =>
    intro t t1 calls h
    simp only [uploadDeletes, Except.ok.injEq, Prod.mk.injEq] at h
    simp [h.1.symm, h.2.symm]
  | cons d ds ih =>
    intro t t1 calls h
    simp only [uploadDeletes] at h
    split at h
    · split at h
      · rename_i res t1' calls' hrec
        simp only [Except.ok.injEq, Prod.mk.injEq] at h
        obtain ⟨rfl, rfl⟩ := h
        obtain ⟨hc, ht⟩ := ih hrec
        exact ⟨by rw [hc]; rfl, by rw [ht]; rfl⟩
      · simp at h
    · simp at h

theorem foldl_deleteMatching :
    ∀ (ds : List Row) (t : Table),
      ds.foldl (fun acc r => deleteMatching acc r.primary_ns r.secondary_ns r.key) t =
        t.filter (fun x => ds.all (fun r => !sameKey x r)) := by
  intro ds
  induction ds with
  | nil => intro t; simp
  | cons d ds ih =>
    intro t
    rw [List.foldl_cons, ih]
    unfold deleteMatching
    rw [List.filter_filter]
    apply List.filter_congr
    intro x _
    show ((ds.all fun r => !sameKey x r) && !sameKey x d) = ((d :: ds).all fun r => !sameKey x r)
    rw [List.all_cons, Bool.and_comm]

theorem deletePhase_eq {t : Table} (hwf : WF t) :
    t.filter (fun x => (t.filter (·.removed)).all (fun r => !sameKey x r)) =
      t.filter (fun x => !x.removed) := by
  apply List.filter_congr
  intro x hx
  by_cases hrm : x.removed = true
  · have hxin : x ∈ t.filter (·.removed) := List.mem_filter.mpr ⟨hx, hrm⟩
    have : ((t.filter (·.removed)).all (fun r => !sameKey x r)) = false := by
      rw [Bool.eq_false_iff]
      intro hall
      have := List.all_eq_true.mp hall x hxin
      simp [sameKey_self] at this
    rw [this, hrm]
    rfl
  · simp only [Bool.not_eq_true] at hrm
    have : ((t.filter (·.removed)).all (fun r => !sameKey x r)) = true := by
      rw [List.all_eq_true]
      intro r hr
      obtain ⟨hrt, hrrm⟩ := List.mem_filter.mp hr
      by_cases hsk : sameKey x r = true
      · have := WF_eq hwf hx hrt hsk
        subst this
        rw [hrm] at hrrm
        exact absurd hrrm (by simp)
      · simp only [Bool.not_eq_true] at hsk
        simp [hsk]
    rw [this, hrm]
    rfl

theorem uploadPuts_ok {putOk : String → Bool} :
    ∀ {ps : List Row} {t t1 : Table} {calls : List RCall},
      uploadPuts putOk ps t = .ok (t1, calls) →
      calls = ps.map (fun r =>
        RCall.put (fullKey r.primary_ns r.secondary_ns r.key) r.value r.local_version) ∧
      t1 = ps.foldl
        (fun acc r => updateMatching acc r.primary_ns r.secondary_ns r.key syncRemote) t := by
  intro ps
  induction ps with
  | nil =>
    intro t t1 calls h
    simp only [uploadPuts, Except.ok.injEq, Prod.mk.injEq] at h
    simp [h.1.symm, h.2.symm]
  | cons d ps ih =>
    intro t t1 calls h
    simp only [uploadPuts] at h
    split at h
    · split at h
      · rename_i res t1' calls' hrec
        simp only [Except.ok.injEq, Prod.mk.injEq] at h
        obtain ⟨rfl, rfl⟩ := h
        obtain ⟨hc, ht⟩ := ih hrec
        exact ⟨by rw [hc]; rfl, by rw [ht]; rfl⟩
      · simp at h
    · simp at h

theorem syncRemote_idem (x : Row) : syncRemote (syncRemote x) = syncRemote x := rfl

theorem foldl_updateMatching_sync :
    ∀ (ps : List Row) (t : Table),
      ps.foldl (fun acc r => updateMatching acc r.primary_ns r.secondary_ns r.key syncRemote) t =
        t.map (fun x => if ps.any (fun r => sameKey x r) then syncRemote x else x) := by
  intro ps
  induction ps with
  | nil => intro t; simp
  | cons d ps ih =>
    intro t
    rw [List.foldl_cons, ih]
    unfold updateMatching
    rw [List.map_map]
    apply List.map_congr_left
    intro x _
    show (fun x => if ps.any (fun r => sameKey x r) then syncRemote x else x)
        (if sameKey x d then syncRemote x else x) = _
    by_cases hd : sameKey x d = true
    · rw [if_pos hd]
      simp only
      have hany : ((d :: ps).any (fun r => sameKey x r)) = true := by
        simp [List.any_cons, hd]
      rw [hany, if_pos rfl]
      show (if ps.any (fun r => sameKey x r) then syncRemote (syncRemote x)
        else syncRemote x) = syncRemote x
      rw [syncRemote_idem]
      split <;> rfl
    · simp only [Bool.not_eq_true] at hd
      rw [if_neg (by simp [hd])]
      simp only [List.any_cons, hd]
      rfl

theorem syncRemote_clean {x : Row} (h : x.local_version = x.remote_version) :
    syncRemote x = x := by
  cases x
  simp only [syncRemote]
  simp_all

/-- Full characterization of a successful `upload` on a well-formed
table: the tombstoned rows are deleted, every surviving row ends with
`remote_version = local_version`, and the calls are the tombstones'
deletes followed by a put per modified row at its `local_version`. -/
theorem upload_allOk {t : Table} {delOk putOk : String → Bool} {t2 : Table}
    {calls : List RCall} (hwf : WF t) (h : upload t delOk putOk = .ok (t2, calls)) :
    t2 = (t.filter (fun r => !r.removed)).map syncRemote ∧
    calls = (t.filter (·.removed)).map
        (fun r => RCall.del (fullKey r.primary_ns r.secondary_ns r.key)) ++
      ((t.filter (fun r => !r.removed)).filter
        (fun r => r.local_version != r.remote_version)).map
        (fun r =>
          RCall.put (fullKey r.primary_ns r.secondary_ns r.key) r.value r.local_version) := by
  unfold upload at h
  split at h
  · simp at h
  · rename_i res t1 delCalls hdel
    split at h
    · simp at h
    · rename_i res2 t2' putCalls hput
      simp only [Except.ok.injEq, Prod.mk.injEq] at h
      obtain ⟨rfl, rfl⟩ := h
      obtain ⟨hdc, ht1⟩ := uploadDeletes_ok hdel
      rw [foldl_deleteMatching] at ht1
      rw [deletePhase_eq hwf] at ht1
      subst ht1
      obtain ⟨hpc, ht2⟩ := uploadPuts_ok hput
      subst ht2
      have hps : (t.filter (fun x => !x.removed)).filter
            (fun r => (r.local_version != r.remote_version) && !r.removed) =
          (t.filter (fun x => !x.removed)).filter
            (fun r => r.local_version != r.remote_version) := by
        apply List.filter_congr
        intro x hx
        have := (List.mem_filter.mp hx).2
        rw [this]
        simp
      constructor
      · rw [foldl_updateMatching_sync]
        apply List.map_congr_left
        intro x hx
        by_cases hxd : (x.local_version != x.remote_version) = true
        · have hxin : x ∈ (t.filter (fun x => !x.removed)).filter
              (fun r => (r.local_version != r.remote_version) && !r.removed) := by
            rw [hps]
            exact List.mem_filter.mpr ⟨hx, hxd⟩
          rw [if_pos (List.any_eq_true.mpr ⟨x, hxin, sameKey_self x⟩)]
        · simp only [bne, Bool.not_eq_true, Bool.not_eq_eq_eq_not, Bool.not_true,
            beq_eq_false_iff_ne, ne_eq, Decidable.not_not] at hxd
          rw [syncRemote_clean hxd]
          split <;> rfl
      · rw [hdc, hpc, hps]

theorem lv_ite_syncRemote (x : Row) (p s k : String) :
    (if keyMatches x p s k then syncRemote x else x).local_version = x.local_version := by
  split <;> rfl

theorem findRow_props {t : Table} {p s k : String} {r : Row}
    (h : findRow t p s k = some r) : r ∈ t ∧ keyMatches r p s k = true := by
  unfold findRow at h
  have h2 := List.find?_some h
  exact ⟨List.mem_of_find?_eq_some h, h2⟩

/-- C5: reconciliation with previous holder `LocalInstance` uploads
exactly when `is_dirty` holds (the
`count(local_version != remote_version OR removed = 1) > 0` test), and a
successful upload issues a remote delete for every tombstoned row,
deletes those rows locally, then puts every remaining modified row with
its `local_version` as expected version and sets
`remote_version = local_version`. -/
theorem reconcile_local_upload (t : Table) (remote : Remote) (delOk putOk : String → Bool)
    (hwf : WF t) :
    (is_dirty t = false → reconcile .LocalInstance t remote delOk putOk = .ok (t, [])) ∧
    (is_dirty t = true → reconcile .LocalInstance t remote delOk putOk = upload t delOk putOk) ∧
    (∀ t2 calls, upload t delOk putOk = .ok (t2, calls) →
      t2 = (t.filter (fun r => !r.removed)).map syncRemote ∧
      calls = (t.filter (·.removed)).map
          (fun r => RCall.del (fullKey r.primary_ns r.secondary_ns r.key)) ++
        ((t.filter (fun r => !r.removed)).filter
          (fun r => r.local_version != r.remote_version)).map
          (fun r => RCall.put (fullKey r.primary_ns r.secondary_ns r.key)
            r.value r.local_version)) := by
  refine ⟨?_, ?_, fun t2 calls h => upload_allOk hwf h⟩
  · intro hd
    unfold reconcile
    rw [hd]
  · intro hd
    unfold reconcile
    rw [hd]

/-- Witness for C5 at a concrete input (a dirty one-row table). -/
theorem reconcile_local_upload_witness :
    WF [⟨"p", "s", "a", [1], 1, 0, false⟩] ∧
    is_dirty [⟨"p", "s", "a", [1], 1, 0, false⟩] = true ∧
    reconcile .LocalInstance [⟨"p", "s", "a", [1], 1, 0, false⟩]
      { listing := .ok [], getf := fun _ => .ok none } (fun _ => true) (fun _ => true) =
      upload [⟨"p", "s", "a", [1], 1, 0, false⟩] (fun _ => true) (fun _ => true) :=
  ⟨by decide, by decide,
    (reconcile_local_upload [⟨"p", "s", "a", [1], 1, 0, false⟩]
      { listing := .ok [], getf := fun _ => .ok none } (fun _ => true) (fun _ => true)
      (by decide)).2.1 (by decide)⟩

/-! ### Version monotonicity (C7) -/

theorem writeOp_version_mono {t : Table} {p s k p' s' k' : String} {v : Bytes}
    {putOk : Bool} {r r' : Row} (hr : findRow t p' s' k' = some r)
    (hr' : findRow (writeOp t p s k v putOk).table p' s' k' = some r') :
    r.local_version ≤ r'.local_version := by
  cases hfr : findRow t p s k with
  | none =>
    rw [writeOp_of_none hfr] at hr'
    have hap : findRow (t ++ [⟨p, s, k, v, 0, -1, false⟩]) p' s' k' = some r :=
      findRow_append_left hr
    cases putOk with
    | false =>
      have h2 : findRow (t ++ [⟨p, s, k, v, 0, -1, false⟩]) p' s' k' = some r' := hr'
      rw [hap] at h2
      cases h2
      exact le_refl _
    | true =>
      have h2 : findRow (updateMatching (t ++ [⟨p, s, k, v, 0, -1, false⟩]) p s k syncRemote)
          p' s' k' = some r' := hr'
      rw [findRow_updateMatching keyFix_syncRemote, hap] at h2
      simp only [Option.map_some'] at h2
      cases h2
      have he : (if keyMatches r p s k then syncRemote r else r).local_version =
          r.local_version := by
        split <;> rfl
      exact le_of_eq he.symm
  | some r0 =>
    by_cases hc : (!r0.removed && r0.value == v) = true
    · rw [writeOp_of_skip hfr hc] at hr'
      have h2 : findRow t p' s' k' = some r' := hr'
      rw [hr] at h2
      cases h2
      exact le_refl _
    · rw [writeOp_of_update hfr hc] at hr'
      have hupd : findRow (updateMatching t p s k (writeUpd v (r0.local_version + 1)))
          p' s' k' =
          some (if keyMatches r p s k then writeUpd v (r0.local_version + 1) r else r) := by
        rw [findRow_updateMatching (keyFix_writeUpd _ _), hr]
        rfl
      have hle : r.local_version ≤
          (if keyMatches r p s k then writeUpd v (r0.local_version + 1) r
           else r).local_version := by
        by_cases hk : keyMatches r p s k = true
        · rw [if_pos hk]
          obtain ⟨hrp, hrs, hrk⟩ := keyMatches_iff.mp hk
          obtain ⟨hrp', hrs', hrk'⟩ := keyMatches_iff.mp (findRow_props hr).2
          have hp : p' = p := hrp'.symm.trans hrp
          have hs : s' = s := hrs'.symm.trans hrs
          have hk2 : k' = k := hrk'.symm.trans hrk
          subst hp hs hk2
          rw [hfr] at hr
          cases hr
          simp only [writeUpd]
          omega
        · rw [if_neg hk]
      cases putOk with
      | false =>
        have h2 : findRow (updateMatching t p s k (writeUpd v (r0.local_version + 1)))
            p' s' k' = some r' := hr'
        rw [hupd] at h2
        cases h2
        exact hle
      | true =>
        have h2 : findRow (updateMatching
            (updateMatching t p s k (writeUpd v (r0.local_version + 1))) p s k syncRemote)
            p' s' k' = some r' := hr'
        rw [findRow_updateMatching keyFix_syncRemote, hupd] at h2
        simp only [Option.map_some'] at h2
        cases h2
        refine hle.trans (le_of_eq ?_)
        exact (lv_ite_syncRemote _ p s k).symm

theorem removeOp_version_mono {t : Table} {p s k p' s' k' : String} {lz dOk : Bool}
    {r r' : Row} (hwf : WF t) (hr : findRow t p' s' k' = some r)
    (hr' : findRow (removeOp t p s k lz dOk).table p' s' k' = some r') :
    r.local_version ≤ r'.local_version := by
  cases dOk with
  | false =>
    have h2 : findRow (updateMatching t p s k tombstone) p' s' k' = some r' := hr'
    rw [findRow_updateMatching keyFix_tombstone, hr] at h2
    simp only [Option.map_some'] at h2
    cases h2
    have he : (if keyMatches r p s k then tombstone r else r).local_version =
        r.local_version := by
      split <;> rfl
    exact le_of_eq he.symm
  | true =>
    have h2 : findRow (deleteMatching (updateMatching t p s k tombstone) p s k) p' s' k' =
        some r' := hr'
    obtain ⟨hr'mem, hr'km⟩ := findRow_props h2
    have hr'mem2 : r' ∈ updateMatching t p s k tombstone ∧ (!keyMatches r' p s k) = true := by
      have := List.mem_filter.mp hr'mem
      exact this
    obtain ⟨y, hy, hyeq⟩ := List.mem_map.mp hr'mem2.1
    by_cases hky : keyMatches y p s k = true
    · rw [if_pos hky] at hyeq
      have hfil := hr'mem2.2
      rw [← hyeq] at hfil
      rw [keyMatches_of_keyFix keyFix_tombstone, hky] at hfil
      simp at hfil
    · rw [if_neg hky] at hyeq
      subst hyeq
      obtain ⟨hyp', hys', hyk'⟩ := keyMatches_iff.mp hr'km
      obtain ⟨hrt, hrkm⟩ := findRow_props hr
      obtain ⟨hrp', hrs', hrk'⟩ := keyMatches_iff.mp hrkm
      have hsk : sameKey y r = true := keyMatches_iff.mpr
        ⟨hyp'.trans hrp'.symm, hys'.trans hrs'.symm, hyk'.trans hrk'.symm⟩
      have := WF_eq hwf hy hrt hsk
      subst this
      exact le_refl _

theorem upload_version_preserved {t : Table} {delOk putOk : String → Bool} {t2 : Table}
    {calls : List RCall} {p' s' k' : String} {r r' : Row} (hwf : WF t)
    (h : upload t delOk putOk = .ok (t2, calls)) (hr : findRow t p' s' k' = some r)
    (hr' : findRow t2 p' s' k' = some r') : r'.local_version = r.local_version := by
  obtain ⟨ht2, -⟩ := upload_allOk hwf h
  subst ht2
  obtain ⟨hr'mem, hr'km⟩ := findRow_props hr'
  obtain ⟨y, hy, hyeq⟩ := List.mem_map.mp hr'mem
  have hyt : y ∈ t := (List.mem_filter.mp hy).1
  subst hyeq
  have hkm : keyMatches y p' s' k' = true := by
    rw [← keyMatches_of_keyFix keyFix_syncRemote]
    exact hr'km
  obtain ⟨hyp', hys', hyk'⟩ := keyMatches_iff.mp hkm
  obtain ⟨hrt, hrkm⟩ := findRow_props hr
  obtain ⟨hrp', hrs', hrk'⟩ := keyMatches_iff.mp hrkm
  have hsk : sameKey y r = true := keyMatches_iff.mpr
    ⟨hyp'.trans hrp'.symm, hys'.trans hrs'.symm, hyk'.trans hrk'.symm⟩
  have := WF_eq hwf hyt hrt hsk
  subst this
  rfl

theorem upload_put_version {t : Table} {delOk putOk : String → Bool} {t2 : Table}
    {calls : List RCall} {fk : String} {val : Bytes} {ver : Int} (hwf : WF t)
    (h : upload t delOk putOk = .ok (t2, calls)) (hmem : RCall.put fk val ver ∈ calls) :
    ∃ r ∈ t, r.removed = false ∧ (r.local_version != r.remote_version) = true ∧
      fk = fullKey r.primary_ns r.secondary_ns r.key ∧ val = r.value ∧
      ver = r.local_version := by
  obtain ⟨-, hcalls⟩ := upload_allOk hwf h
  subst hcalls
  rcases List.mem_append.mp hmem with hd | hp
  · obtain ⟨y, hy, hyeq⟩ := List.mem_map.mp hd
    exact absurd hyeq (by simp)
  · obtain ⟨y, hy, hyeq⟩ := List.mem_map.mp hp
    obtain ⟨hy1, hy2⟩ := List.mem_filter.mp hy
    obtain ⟨hy0, hyrm⟩ := List.mem_filter.mp hy1
    simp only [RCall.put.injEq] at hyeq
    obtain ⟨hfk, hval, hver⟩ := hyeq
    refine ⟨y, hy0, by simpa using hyrm, hy2, hfk.symm, hval.symm, hver.symm⟩

theorem writeOp_put_version {t : Table} {p s k : String} {v : Bytes} {putOk : Bool}
    {r0 : Row} {fk : String} {vv : Bytes} {ver : Int}
    (hfr : findRow t p s k = some r0)
    (hp : (writeOp t p s k v putOk).putCall = some (fk, vv, ver)) :
    ver = r0.local_version + 1 ∧
    (putOk = true → ∃ r', findRow (writeOp t p s k v putOk).table p s k = some r' ∧
      r'.local_version = ver) := by
  by_cases hc : (!r0.removed && r0.value == v) = true
  · rw [writeOp_of_skip hfr hc] at hp
    simp at hp
  · rw [writeOp_of_update hfr hc] at hp ⊢
    have hupd : findRow (updateMatching t p s k (writeUpd v (r0.local_version + 1))) p s k =
        some (writeUpd v (r0.local_version + 1) r0) :=
      findRow_updateMatching_self (keyFix_writeUpd _ _) hfr
    cases putOk with
    | false =>
      rw [finishPut_false] at hp
      simp only [Option.some.injEq, Prod.mk.injEq] at hp
      exact ⟨hp.2.2.symm, by intro hco; exact absurd hco (by simp)⟩
    | true =>
      rw [finishPut_true] at hp ⊢
      simp only [Option.some.injEq, Prod.mk.injEq] at hp
      refine ⟨hp.2.2.symm, fun _ => ⟨syncRemote (writeUpd v (r0.local_version + 1) r0),
        findRow_updateMatching_self keyFix_syncRemote hupd, ?_⟩⟩
      rw [← hp.2.2]
      rfl

/-- C7 counterexample to the claim as stated: (a) download
reconciliation replaces a row of `local_version = 5` by one of
`local_version = 0`, so `local_version` is not non-decreasing across
reconciliation; (b) a successful remote put issued by upload
reconciliation leaves the row's `local_version` at `1` instead of
increasing it by one. -/
theorem version_monotonicity_cex :
    reconcile .RemoteInstance [⟨"p", "s", "k", [1], 5, 5, false⟩]
      { listing := .ok [("p/s/k", 1)],
        getf := fun fk => if fk = "p/s/k" then .ok (some ([2], 1)) else .ok none }
      (fun _ => true) (fun _ => true) = .ok ([⟨"p", "s", "k", [2], 0, 0, false⟩], []) ∧
    ¬ ((5 : Int) ≤ 0) ∧
    upload [⟨"p", "s", "k", [1], 1, 0, false⟩] (fun _ => true) (fun _ => true) =
      .ok ([⟨"p", "s", "k", [1], 1, 1, false⟩], [RCall.put "p/s/k" [1] 1]) ∧
    ¬ ((1 : Int) = 1 + 1) :=
  ⟨by rfl, by decide, by rfl, by decide⟩

/-- C7 (amended): on a well-formed table, `local_version` is
non-decreasing across `write` and `remove` for every row, and a
successful upload reconciliation leaves every surviving row's
`local_version` unchanged while issuing each put at the row's current
`local_version`; a remote put issued by `write` for an existing row
carries exactly `local_version + 1` and, on success, leaves the row's
`local_version` at that value.  (Download reconciliation rebuilds the
table from the remote and may assign smaller versions.) -/
theorem version_monotonicity_amended (t : Table) (p s k p' s' k' : String) (v : Bytes)
    (putOk lz dOk : Bool) (delOk putOk2 : String → Bool) (hwf : WF t) :
    (∀ r r', findRow t p' s' k' = some r →
      findRow (writeOp t p s k v putOk).table p' s' k' = some r' →
      r.local_version ≤ r'.local_version) ∧
    (∀ r r', findRow t p' s' k' = some r →
      findRow (removeOp t p s k lz dOk).table p' s' k' = some r' →
      r.local_version ≤ r'.local_version) ∧
    (∀ t2 calls, upload t delOk putOk2 = .ok (t2, calls) →
      (∀ r r', findRow t p' s' k' = some r → findRow t2 p' s' k' = some r' →
        r'.local_version = r.local_version) ∧
      (∀ fk val ver, RCall.put fk val ver ∈ calls →
        ∃ r ∈ t, ver = r.local_version ∧
          fk = fullKey r.primary_ns r.secondary_ns r.key)) ∧
    (∀ r0 fk vv ver, findRow t p s k = some r0 →
      (writeOp t p s k v putOk).putCall = some (fk, vv, ver) →
      ver = r0.local_version + 1 ∧
      (putOk = true → ∃ r', findRow (writeOp t p s k v putOk).table p s k = some r' ∧
        r'.local_version = ver)) := by
  refine ⟨fun r r' hr hr' => writeOp_version_mono hr hr',
    fun r r' hr hr' => removeOp_version_mono hwf hr hr',
    fun t2 calls h => ⟨fun r r' hr hr' => upload_version_preserved hwf h hr hr', ?_⟩,
    fun r0 fk vv ver hfr hp => writeOp_put_version hfr hp⟩
  intro fk val ver hmem
  obtain ⟨r, hrt, -, -, hfk, -, hver⟩ := upload_put_version hwf h hmem
  exact ⟨r, hrt, hver, hfk⟩

/-- Witness for C7's amended theorem at a concrete input. -/
theorem version_monotonicity_amended_witness :
    WF [⟨"p", "s", "k", [1], 1, 0, false⟩] ∧
    findRow [⟨"p", "s", "k", [1], 1, 0, false⟩] "p" "s" "k" =
      some ⟨"p", "s", "k", [1], 1, 0, false⟩ ∧
    (writeOp [⟨"p", "s", "k", [1], 1, 0, false⟩] "p" "s" "k" [2] true).putCall =
      some (fullKey "p" "s" "k", [2], 2) ∧
    ((2 : Int) =
      Row.local_version ⟨"p", "s", "k", [1], 1, 0, false⟩ + 1) :=
  ⟨by decide, by rfl, by rfl,
    ((version_monotonicity_amended [⟨"p", "s", "k", [1], 1, 0, false⟩] "p" "s" "k" "p" "s" "k"
      [2] true false true (fun _ => true) (fun _ => true) (by decide)).2.2.2
      ⟨"p", "s", "k", [1], 1, 0, false⟩ (fullKey "p" "s" "k") [2] 2 (by rfl) (by rfl)).1⟩

/-- Witness for C10 at a concrete input. -/
theorem remove_missing_key_witness :
    findRow [] "p" "s" "k" = none ∧
    (removeOp [] "p" "s" "k" false true).ok = true ∧
    (removeOp [] "p" "s" "k" false true).delCall = fullKey "p" "s" "k" :=
  ⟨rfl, (remove_missing_key [] "p" "s" "k" false true rfl).1,
    (remove_missing_key [] "p" "s" "k" false true rfl).2.1⟩

/-! ### VssStore claims -/

/-- C8: the payload committed by a VSS put embeds version `version + 1`
(the value the server will assign); a get returns `none` when the remote
reports the key absent (empty value or NoSuchKey), returns the decrypted
value exactly when the envelope authenticates and the embedded version
equals the metadata version, and errors on an embedded/metadata version
mismatch (or on an authentication failure). -/
theorem vss_version_embedding (obf : String → String) (key : String) (value : Bytes)
    (version : Int) (kv : KeyValueM) :
    (construct_storable key value version).version = version + 1 ∧
    (vssPutItem obf key value version).value.version = version + 1 ∧
    vssGet obf key (.ok none) = .ok none ∧
    vssGet obf key .noSuchKey = .ok none ∧
    (kv.value.aad = strBytes (obf key) →
      (kv.value.version = kv.version →
        vssGet obf key (.ok (some kv)) = .ok (some (kv.value.value, kv.version))) ∧
      (kv.value.version ≠ kv.version → vssGet obf key (.ok (some kv)) = .error ())) ∧
    (kv.value.aad ≠ strBytes (obf key) → vssGet obf key (.ok (some kv)) = .error ()) := by
  refine ⟨rfl, rfl, rfl, rfl, ?_, ?_⟩
  · intro haad
    constructor
    · intro hv
      simp [vssGet, deconstruct_storable, deconstructStorable, haad, hv]
    · intro hv
      simp [vssGet, deconstruct_storable, deconstructStorable, haad, hv]
  · intro haad
    simp [vssGet, deconstruct_storable, deconstructStorable, haad]

/-- Witness for C8 at a concrete input. -/
theorem vss_version_embedding_witness :
    (construct_storable "k" [1] 2).version = 2 + 1 ∧
    vssGet (fun x => x) "k"
        (.ok (some ⟨"k", 3, ⟨[1], 3, strBytes "k"⟩⟩)) = .ok (some ([1], 3)) :=
  ⟨(vss_version_embedding (fun x => x) "k" [1] 2 ⟨"k", 3, ⟨[1], 3, strBytes "k"⟩⟩).1,
    ((vss_version_embedding (fun x => x) "k" [1] 2
      ⟨"k", 3, ⟨[1], 3, strBytes "k"⟩⟩).2.2.2.2.1 (by rfl)).1 (by rfl)⟩

/-! ### Authentication claim -/

/-- C9: `authenticate` accepts exactly when the headers carry a
parseable user pubkey, api key and timestamp, the timestamp is within
`max_skew` of the verifier's clock, and the signature header is valid
zbase32 of a 65-byte recoverable ECDSA signature (recovery id at most 3)
over SHA-256d of `"realtimesync:" ∥ be32(timestamp) ∥ api_key` that
recovers to exactly the header pubkey; on success it returns the
pubkey's hex string. -/
theorem authenticate_iff (c : Crypto) (hs : List (String × String))
    (nowNs maxSkewNs : Nat) (out : String) :
    authenticate c hs nowNs maxSkewNs = some out ↔
    ∃ pubkeyHex pubkeyBytes expectedPk apiKey tsStr ts sigStr sigBytes,
      findHeader hs USER_PUBKEY_HEADER = some pubkeyHex ∧
      c.hexDecode pubkeyHex = some pubkeyBytes ∧
      c.pubkeyFromSlice pubkeyBytes = some expectedPk ∧
      findHeader hs API_KEY_HEADER = some apiKey ∧
      findHeader hs REQUEST_TIME_HEADER = some tsStr ∧
      parseU32 tsStr = some ts ∧
      skewNs nowNs ts ≤ maxSkewNs ∧
      findHeader hs SIGNATURE_HEADER = some sigStr ∧
      c.zbase32Decode sigStr = some sigBytes ∧
      sigBytes.length = 65 ∧
      sigBytes.getD 64 0 ≤ 3 ∧
      c.sigParseOk (sigBytes.take 64) (sigBytes.getD 64 0) = true ∧
      (build_signed_message c.sha256d apiKey ts).length = 32 ∧
      c.recover (build_signed_message c.sha256d apiKey ts)
        (sigBytes.take 64, sigBytes.getD 64 0) = some expectedPk ∧
      out = pubkeyHex := by
  constructor
  · intro h
    unfold authenticate at h
    split at h
    · simp at h
    rename_i pubkeyHex h1
    split at h
    · simp at h
    rename_i pubkeyBytes h2
    split at h
    · simp at h
    rename_i expectedPk h3
    split at h
    · simp at h
    rename_i apiKey h4
    split at h
    · simp at h
    rename_i tsStr h5
    split at h
    · simp at h
    rename_i ts h6
    split at h
    · simp at h
    rename_i h7
    split at h
    · simp at h
    rename_i sigStr h8
    split at h
    · simp at h
    rename_i sigBytes h9
    split at h
    · simp at h
    rename_i h10
    split at h
    · simp at h
    rename_i h11
    split at h
    · rename_i h12
      split at h
      · rename_i h13
        split at h
        · simp at h
        rename_i recovered h14
        split at h
        · rename_i h15
          simp only [Option.some.injEq] at h
          subst h
          refine ⟨pubkeyHex, pubkeyBytes, expectedPk, apiKey, tsStr, ts, sigStr, sigBytes,
            h1, h2, h3, h4, h5, h6, by omega, h8, h9, by omega, by omega, h12, h13, ?_, rfl⟩
          rw [h14, h15]
        · simp at h
      · simp at h
    · simp at h
  · rintro ⟨pubkeyHex, pubkeyBytes, expectedPk, apiKey, tsStr, ts, sigStr, sigBytes,
      h1, h2, h3, h4, h5, h6, h7, h8, h9, h10, h11, h12, h13, h14, rfl⟩
    rw [List.getD_eq_getElem?_getD] at h11 h12 h14
    have h7' : ¬ (skewNs nowNs ts > maxSkewNs) := by omega
    have h10' : ¬ (sigBytes.length ≠ 65) := by omega
    have h11' : ¬ (sigBytes[64]?.getD 0 > 3) := by omega
    simp [authenticate, h1, h2, h3, h4, h5, h6, h7', h8, h9, h10', h11, h11', h12, h13,
      h14]

/-- Witness-style instance of C9 at a concrete input: with trivial
primitives and matching headers, authentication succeeds and returns the
pubkey header. -/
theorem authenticate_iff_witness :
    authenticate
      { hexDecode := fun _ => some [2], pubkeyFromSlice := fun b => some b,
        zbase32Decode := fun _ => some (List.replicate 65 0),
        sigParseOk := fun _ _ => true, recover := fun _ _ => some [2],
        sha256d := fun _ => List.replicate 32 0 }
      [(USER_PUBKEY_HEADER, "02aa"), (API_KEY_HEADER, "key"),
        (REQUEST_TIME_HEADER, "5"), (SIGNATURE_HEADER, "sig")]
      (5 * nsPerSec) 0 = some "02aa" :=
  (authenticate_iff
    { hexDecode := fun _ => some [2], pubkeyFromSlice := fun b => some b,
      zbase32Decode := fun _ => some (List.replicate 65 0),
      sigParseOk := fun _ _ => true, recover := fun _ _ => some [2],
      sha256d := fun _ => List.replicate 32 0 }
    [(USER_PUBKEY_HEADER, "02aa"), (API_KEY_HEADER, "key"),
      (REQUEST_TIME_HEADER, "5"), (SIGNATURE_HEADER, "sig")]
    (5 * nsPerSec) 0 "02aa").mpr
    ⟨"02aa", [2], [2], "key", "5", 5, "sig", List.replicate 65 0,
      by rfl, rfl, rfl, by rfl, by rfl, by rfl, by simp [skewNs],
      by rfl, rfl, by simp, by decide, rfl, by rfl, rfl, rfl⟩

end BreezStore
